import Mathlib

/-!
The pugo static file server, `app/server/server.go`.

A shallow embedding of the request handler of `server.go`: the prefix
configuration of `Server`, the candidate lookup of `serveFiles`, the request
lifecycle of `ServeHTTP` (status capture, panic recovery), the note selection
of `notes.GenNote` and the marker rewrite of `readAndReplacedFile`.

Go strings are modelled as lists of characters.  Every character the code
compares against (`/`, `.`, the characters of the marker pattern) is ASCII,
so on valid UTF-8 text the byte-wise Go operations and the character-wise
operations below agree.

The Go standard library functions the handler calls (`strings.HasPrefix`,
`strings.HasSuffix`, `strings.TrimPrefix`, `strings.TrimSuffix`, `path.Ext`,
`path.Clean`, `path.Join`) are transcribed from the Go sources.  The file
system, the template engine, the clock and `http.ServeFile` are inputs of the
model, collected in `Env`.
-/

namespace Pugo

/-- A Go `string`. -/
abbrev GoString := List Char

/-! ## Package `strings` -/

/-- Go `strings.HasPrefix`:
`len(s) >= len(prefix) && s[:len(prefix)] == prefix`. -/
def HasPrefix (s pre : GoString) : Bool :=
  decide (pre.length ≤ s.length) && (s.take pre.length == pre)

/-- Go `strings.HasSuffix`:
`len(s) >= len(suffix) && s[len(s)-len(suffix):] == suffix`. -/
def HasSuffix (s suf : GoString) : Bool :=
  decide (suf.length ≤ s.length) && (s.drop (s.length - suf.length) == suf)

/-- Go `strings.TrimPrefix`: `s[len(prefix):]` when `s` has the prefix, else `s`. -/
def TrimPrefix (s pre : GoString) : GoString :=
  if HasPrefix s pre then s.drop pre.length else s

/-- Go `strings.TrimSuffix`: `s[:len(s)-len(suffix)]` when `s` has the suffix, else `s`. -/
def TrimSuffix (s suf : GoString) : GoString :=
  if HasSuffix s suf then s.take (s.length - suf.length) else s

/-- Go `strings.Join(elems, sep)`. -/
def stringsJoin : List GoString → GoString → GoString
  | [], _ => []
  | [e], _ => e
  | e :: f :: rest, sep => e ++ sep ++ stringsJoin (f :: rest) sep

/-- Go `strings.Contains(s, substr)`. -/
def Contains : GoString → GoString → Bool
  | [], sub => sub.isEmpty
  | c :: cs, sub => HasPrefix (c :: cs) sub || Contains cs sub

/-! ## Package `path` -/

/-- The backward scan of `path.Ext`, on the reversed path: `acc` holds
`path[i+1:]`.  The scan stops with `""` at a slash and with `path[i:]` at a dot. -/
def extScan : GoString → GoString → GoString
  | [], _ => []
  | c :: before, acc =>
    if c = '/' then []
    else if c = '.' then c :: acc
    else extScan before (c :: acc)

/-- Go `path.Ext`: the suffix beginning at the final dot in the final
slash-separated element of `path`; empty if there is no dot. -/
def Ext (path : GoString) : GoString := extScan path.reverse []

/-- The position `r` is at the end of a path element: `r == n || path[r] == '/'`,
where `l` is `path[r:]`. -/
def atElemEnd (l : GoString) : Bool :=
  match l with
  | [] => true
  | c :: _ => c == '/'

/-- The backtracking of `path.Clean` at a `..` element, entered with
`out.w = w + 1 > dotdot`:
`out.w--; for out.w > dotdot && out.index(out.w) != '/' { out.w-- }`.
Returns the final `out.w`. -/
def backtrack (buf : GoString) (dotdot : Nat) : Nat → Nat
  | 0 => 0
  | w + 1 =>
    if dotdot < w ∧ buf[w]? ≠ some '/' then backtrack buf dotdot w else w

/-- The main loop `for r < n` of `path.Clean`.  `path` is the unread input
`path[r:]`, `out` the written buffer `buf[:w]`, `dotdot` the index where `..`
must stop.  Every iteration reads at least one character, so `fuel` equal to
the length of the input is enough (`cleanLoop_fuel`). -/
def cleanLoop (rooted : Bool) : Nat → GoString → GoString → Nat → GoString
  | 0, _, out, _ => out
  | fuel + 1, path, out, dotdot =>
    match path with
    | [] => out
    | c :: rest =>
      if c = '/' then
        -- empty path element
        cleanLoop rooted fuel rest out dotdot
      else if c = '.' ∧ atElemEnd rest = true then
        -- . element
        cleanLoop rooted fuel rest out dotdot
      else if c = '.' ∧ rest.head? = some '.' ∧ atElemEnd rest.tail = true then
        -- .. element: remove to last /
        if dotdot < out.length then
          cleanLoop rooted fuel rest.tail
            (out.take (backtrack out dotdot out.length)) dotdot
        else if rooted = false then
          let out1 := if 0 < out.length then out ++ ['/'] else out
          cleanLoop rooted fuel rest.tail (out1 ++ ['.', '.']) (out1.length + 2)
        else
          cleanLoop rooted fuel rest.tail out dotdot
      else
        -- real path element: add slash if needed, copy element
        let out1 :=
          if (rooted = true ∧ out.length ≠ 1) ∨ (rooted = false ∧ out.length ≠ 0)
          then out ++ ['/'] else out
        cleanLoop rooted fuel (rest.dropWhile (fun x => x != '/'))
          (out1 ++ c :: rest.takeWhile (fun x => x != '/')) dotdot

/-- Go `path.Clean`. -/
def Clean (path : GoString) : GoString :=
  match path with
  | [] => ['.']
  | c :: rest =>
    let rooted : Bool := c == '/'
    let out :=
      if rooted then cleanLoop true rest.length rest ['/'] 1
      else cleanLoop false (c :: rest).length (c :: rest) [] 0
    if out.length = 0 then ['.'] else out

/-- Go `path.Join`: `Clean(strings.Join(elem[i:], "/"))` for the first
non-empty element `elem[i]`; all elements empty gives `""`. -/
def Join : List GoString → GoString
  | [] => []
  | e :: rest => if e ≠ [] then Clean (stringsJoin (e :: rest) ['/']) else Join rest

/-! ## `Server`, `New`, `SetPrefix`, `GetPrefix` -/

/-- The `Server` struct.  The field `urlPrefix` is the Go field `prefix`. -/
structure Server where
  dstDir : GoString
  urlPrefix : GoString
  deriving DecidableEq, Repr

/-- `(s *Server) SetPrefix`: an empty argument is replaced by `"/"`. -/
def SetPrefix (s : Server) (p : GoString) : Server :=
  { s with urlPrefix := if p = [] then ['/'] else p }

/-- `New`: the struct literal sets `dstDir` only, then `s.SetPrefix("")`. -/
def New (dstDir : GoString) : Server :=
  SetPrefix { dstDir := dstDir, urlPrefix := [] } []

/-- `(s *Server) GetPrefix`. -/
def GetPrefix (s : Server) : GoString := s.urlPrefix

/-! ## `notes` and `GenNote` -/

/-- The Go type `notes []string`. -/
abbrev notes := List GoString

/-- `(n notes) GenNote`, with the reading `t` of `time.Now().Unix()` as an
argument.  `t % int64(len(n))` is Go's truncated remainder (`Int.tmod`); the
index expression `n[i]` panics when `i` is out of range, which is the result
`none`. -/
def GenNote (n : notes) (t : Int) : Option GoString :=
  if n.length = 0 then some []
  else
    let i := Int.tmod t (n.length : Int)
    if i < 0 then none else n[i.toNat]?

/-! ## The marker pattern and `regexp.ReplaceAllString` -/

/-- The pieces the marker pattern is made of: a literal character, a greedy
star over a character class, a non-greedy star over a character class. -/
inductive Item where
  | lit (c : Char)
  | star (cls : Char → Bool)
  | starLazy (cls : Char → Bool)

/-- The class `\s` of Go regular expressions: `[\t\n\f\r ]`. -/
def isSpace (c : Char) : Bool :=
  c == '\t' || c == '\n' || c == '\x0c' || c == '\r' || c == ' '

/-- The class `\S`, the complement of `\s`. -/
def nonSpace (c : Char) : Bool := !isSpace c

/-- The literal `style="color:darkgrey` the pattern begins with. -/
def markerOpen : GoString := "style=\"color:darkgrey".toList

/-- The pattern ``style="color:darkgrey\S*\s*\S*\s*\S*?div`` of `readAndReplacedFile`. -/
def marker : List Item :=
  markerOpen.map Item.lit ++
    [Item.star nonSpace, Item.star isSpace, Item.star nonSpace, Item.star isSpace,
      Item.starLazy nonSpace] ++
    "div".toList.map Item.lit

/-- A greedy star `cls*` followed by the continuation `k`: the longest run is
tried first. -/
def starGreedy (cls : Char → Bool) (k : GoString → Option GoString) :
    GoString → Option GoString
  | [] => k []
  | c :: cs =>
    if cls c then
      match starGreedy cls k cs with
      | some r => some r
      | none => k (c :: cs)
    else k (c :: cs)

/-- A non-greedy star `cls*?` followed by the continuation `k`: the shortest
run is tried first. -/
def starShortest (cls : Char → Bool) (k : GoString → Option GoString) :
    GoString → Option GoString
  | [] => k []
  | c :: cs =>
    match k (c :: cs) with
    | some r => some r
    | none => if cls c then starShortest cls k cs else none

/-- The match of a pattern at the start of `s` that a backtracking search
finds first (the match Go's `regexp` reports at a position); the result is the
text left after the match. -/
def matchItems : List Item → GoString → Option GoString
  | [], s => some s
  | Item.lit c :: items, s =>
    match s with
    | [] => none
    | d :: ds => if d = c then matchItems items ds else none
  | Item.star cls :: items, s => starGreedy cls (matchItems items) s
  | Item.starLazy cls :: items, s => starShortest cls (matchItems items) s

/-- The leftmost match of the pattern in `s`, as
`(text before, matched text, text after)`. -/
def findMatch (re : List Item) : GoString → Option (GoString × GoString × GoString)
  | [] =>
    match matchItems re [] with
    | some after => some ([], [], after)
    | none => none
  | c :: cs =>
    match matchItems re (c :: cs) with
    | some after => some ([], (c :: cs).take ((c :: cs).length - after.length), after)
    | none =>
      match findMatch re cs with
      | some (before, m, after) => some (c :: before, m, after)
      | none => none

/-- The loop of `regexp.ReplaceAllString` for a pattern that matches no empty
text (as the marker pattern, which contains literals): the text before each
match is copied, the match is replaced by `repl` of the matched text, and the
search resumes after the match.  Every match is non-empty, so `fuel` equal to
the length of the text plus one is enough. -/
def replaceAllLoop (re : List Item) (repl : GoString → GoString) :
    Nat → GoString → GoString
  | 0, s => s
  | fuel + 1, s =>
    match findMatch re s with
    | none => s
    | some (before, m, after) => before ++ repl m ++ replaceAllLoop re repl fuel after

/-- Go `regexp.ReplaceAllString(src, template)`.  `expand template m` is the
expansion of the `$` references of the template (`Regexp.Expand`) for the
matched text `m`; it is an argument of the model. -/
def ReplaceAllString (expand : GoString → GoString → GoString) (re : List Item)
    (src template : GoString) : GoString :=
  replaceAllLoop re (expand template) (src.length + 1) src

/-- The rewrite step of `readAndReplacedFile`:
``reg.ReplaceAllString(s, "style=\"color:darkgrey\">" + note + "</div")``
for the note `note` returned by `ns.GenNote()`. -/
def rewrite (expand : GoString → GoString → GoString) (note s : GoString) : GoString :=
  ReplaceAllString expand marker s
    ("style=\"color:darkgrey\">".toList ++ note ++ "</div".toList)

/-! ## The environment of a request -/

/-- The value carried by a Go panic (never nil). -/
abbrev PanicValue := GoString

/-- The run-time panic of an index expression out of range. -/
def indexOutOfRange : PanicValue := "runtime error: index out of range".toList

/-- The collaborators of the handler during one request.
* `IsFile` is `com.IsFile`, `ReadFile` is `ioutil.ReadFile` (the data or the
  error message), `ns` is the package variable `ns` set by `init`.
* `Parse file content` is the error of `template.New(file).Parse(content)`, if any.
* `Execute file content` is the run of `tmpl.Execute(w, nil)`; it writes through
  the embedded `ResponseWriter.Write`, which the wrapper does not capture, so
  all that is kept of it is the value it panics with, if it panics.
* `ServeFile file` is `http.ServeFile(w, r, file)`, seen from the wrapper: the
  statuses it passes to `w.WriteHeader`, in order, and the value it panics
  with, if it panics.
* `Unix k` is the `k`-th reading of the clock during the request, in Unix seconds.
* `Expand` is `Regexp.Expand`, see `ReplaceAllString`. -/
structure Env where
  IsFile : GoString → Bool
  ReadFile : GoString → Except GoString GoString
  Parse : GoString → GoString → Option GoString
  Execute : GoString → GoString → Option PanicValue
  ServeFile : GoString → List Int × Option PanicValue
  Unix : Nat → Int
  ns : notes
  Expand : GoString → GoString → GoString

/-- The `responseWriter` struct.  `written` stands for the embedded
`http.ResponseWriter`: the statuses forwarded to its `WriteHeader`, in order. -/
structure responseWriter where
  written : List Int
  status : Int
  startTime : Int
  error : Option PanicValue
  deriving DecidableEq, Repr

/-- What a request does, in order.  `attempt file` marks a call of
`s.serveFile` with the candidate `file`; the other events are the calls of the
collaborators. -/
inductive Event where
  | attempt (file : GoString)
  | debug (file : GoString)
  | logError (msg : GoString)
  | httpServeFile (file : GoString)
  | execute (file content : GoString)
  | notFound
  | redirect (url : GoString) (code : Int)
  | httpError (code : Int)
  | accessLog (status : Int) (error : Option PanicValue)
  deriving DecidableEq, Repr

/-- The state of one request: the wrapper, the number of clock readings made
so far, and the events so far. -/
structure State where
  w : responseWriter
  ticks : Nat
  trace : List Event
  deriving DecidableEq, Repr

/-- Appends an event to the trace. -/
def State.emit (st : State) (e : Event) : State :=
  { st with trace := st.trace ++ [e] }

/-- The result of a piece of the handler: it returns a value, or it panics;
the state is kept in both cases (the deferred function reads it). -/
inductive Res (α : Type) where
  | ok (a : α) (st : State)
  | panicked (v : PanicValue) (st : State)
  deriving DecidableEq, Repr

/-- `(r *responseWriter) WriteHeader`: the status is captured and forwarded. -/
def WriteHeader (st : State) (status : Int) : State :=
  { st with w := { st.w with status := status, written := st.w.written ++ [status] } }

/-- `ns.GenNote()` inside a request: an empty `ns` returns `""` before the
clock is read; otherwise the clock is read once. -/
def genNote (env : Env) (st : State) : Res GoString :=
  if env.ns.length = 0 then Res.ok [] st
  else
    match GenNote env.ns (env.Unix st.ticks) with
    | some note => Res.ok note { st with ticks := st.ticks + 1 }
    | none => Res.panicked indexOutOfRange { st with ticks := st.ticks + 1 }

/-- `readAndReplacedFile`: a read error is returned; otherwise the data is
rewritten with the current note. -/
def readAndReplacedFile (env : Env) (file : GoString) (st : State) :
    Res (Except GoString GoString) :=
  match env.ReadFile file with
  | Except.error err => Res.ok (Except.error err) st
  | Except.ok data =>
    match genNote env st with
    | Res.panicked v st1 => Res.panicked v st1
    | Res.ok note st1 => Res.ok (Except.ok (rewrite env.Expand note data)) st1

/-- `buildTemplate`: the parse error, or the template (named `file`, with the
text `content`). -/
def buildTemplate (env : Env) (file content : GoString) :
    Except GoString (GoString × GoString) :=
  match env.Parse file content with
  | some err => Except.error err
  | none => Except.ok (file, content)

/-- `(s *Server) serveFile`.  The receiver is not used by the Go method. -/
def serveFile (env : Env) (_s : Server) (file : GoString) (st : State) : Res Bool :=
  let st := st.emit (Event.attempt file)
  if env.IsFile file then
    let st := st.emit (Event.debug file)
    if ¬ HasSuffix file ".html".toList then
      let st := (env.ServeFile file).1.foldl WriteHeader (st.emit (Event.httpServeFile file))
      match (env.ServeFile file).2 with
      | some v => Res.panicked v st
      | none => Res.ok true st
    else
      match readAndReplacedFile env file st with
      | Res.panicked v st => Res.panicked v st
      | Res.ok (Except.error err) st => Res.ok false (st.emit (Event.logError err))
      | Res.ok (Except.ok replacedData) st =>
        match buildTemplate env file replacedData with
        | Except.error err => Res.ok false (st.emit (Event.logError err))
        | Except.ok (name, content) =>
          let st := st.emit (Event.execute name content)
          match env.Execute name content with
          | some v => Res.panicked v st
          | none => Res.ok true { st with w := { st.w with status := 200 } }
  else Res.ok false st

/-- The Go idiom `if f() { return true }; rest`: a served candidate ends
`serveFiles` with `true`, a panic unwinds, otherwise the code goes on. -/
def Res.orElse (r : Res Bool) (rest : State → Res Bool) : Res Bool :=
  match r with
  | Res.ok true st => Res.ok true st
  | Res.ok false st => rest st
  | Res.panicked v st => Res.panicked v st

/-- `(s *Server) serveFiles`. -/
def serveFiles (env : Env) (s : Server) (param : GoString) (st : State) : Res Bool :=
  let ext := Ext param
  if ext = [] ∨ ext = ['.'] then
    -- /xyz -> /xyz.html
    (if ¬ HasSuffix param ['/'] then
        serveFile env s (Join [s.dstDir, s.urlPrefix, param ++ ".html".toList]) st
      else Res.ok false st).orElse fun st =>
    -- /xyz/ -> /xyz/index.html
    (serveFile env s (Join [s.dstDir, s.urlPrefix, param, "index.html".toList]) st).orElse
      fun st =>
    -- /xyz/ -> /xzy.html
    let param := TrimSuffix param ['/']
    (serveFile env s (Join [s.dstDir, s.urlPrefix, param ++ ".html".toList]) st).orElse
      fun st =>
    (serveFile env s (Join [s.dstDir, s.urlPrefix, param]) st).orElse fun st =>
    Res.ok false st
  else
    (serveFile env s (Join [s.dstDir, s.urlPrefix, param]) st).orElse fun st =>
    Res.ok false st

/-- `http.NotFound(w, r)`: replies 404 through `w.WriteHeader`. -/
def NotFound (st : State) : State := WriteHeader (st.emit Event.notFound) 404

/-- `http.Redirect(w, r, url, code)`: replies `code` through `w.WriteHeader`. -/
def Redirect (st : State) (url : GoString) (code : Int) : State :=
  WriteHeader (st.emit (Event.redirect url code)) code

/-- `http.Error(w, text, code)`: replies `code` through `w.WriteHeader`. -/
def httpError (st : State) (code : Int) : State :=
  WriteHeader (st.emit (Event.httpError code)) code

/-- Modelled from the spec: `logger(w, r)` is declared in another file of the
package; it emits one access-log entry with the final status and the error
value, if any. -/
def logger (st : State) : State :=
  st.emit (Event.accessLog st.w.status st.w.error)

/-- The state `ServeHTTP` starts from: the wrapper `w` with the start time. -/
def initState (env : Env) : State :=
  { w := { written := [], status := 0, startTime := env.Unix 0, error := none },
    ticks := 1, trace := [] }

/-- The body of `ServeHTTP` after the `defer`, for the request path `param`. -/
def handle (env : Env) (s : Server) (param : GoString) (st : State) : Res Unit :=
  if param = "favicon.ico".toList ∨ param = "robots.txt".toList then
    match serveFiles env s param st with
    | Res.ok false st => Res.ok () (NotFound st)
    | Res.ok true st => Res.ok () st
    | Res.panicked v st => Res.panicked v st
  else if ¬ HasPrefix param s.urlPrefix then
    Res.ok () (Redirect st s.urlPrefix 302)
  else
    match serveFiles env s (TrimPrefix param s.urlPrefix) st with
    | Res.ok _ st => Res.ok () st
    | Res.panicked v st => Res.panicked v st

/-- The deferred function of `ServeHTTP`: after a panic the value is recorded
and, if no status was captured, a 503 is sent; the request is logged. -/
def deferred (r : Res Unit) : State :=
  match r with
  | Res.ok _ st => logger st
  | Res.panicked v st =>
    let st := { st with w := { st.w with error := some v } }
    logger (if st.w.status = 0 then httpError st 503 else st)

/-- `(s *Server) ServeHTTP` for a request with `r.URL.Path = path`: the state
at the end of the request. -/
def ServeHTTP (env : Env) (s : Server) (path : GoString) : State :=
  deferred (handle env s path (initState env))

/-! ## The claims in the words of the specification -/

/-- The candidates are attempted in the order of the list; the first one that
`attemptOne` serves ends the search with `true`, a panic ends it, and when
none is served the result is `false`. -/
def attemptInOrder (attemptOne : GoString → State → Res Bool) :
    List GoString → State → Res Bool
  | [], st => Res.ok false st
  | file :: files, st =>
    match attemptOne file st with
    | Res.ok true st1 => Res.ok true st1
    | Res.ok false st1 => attemptInOrder attemptOne files st1
    | Res.panicked v st1 => Res.panicked v st1

/-- The candidates of a request path without extension, in the order of the
specification; `param` is the path as `serveFiles` receives it. -/
def candidates (s : Server) (param : GoString) : List GoString :=
  (if HasSuffix param ['/'] then []
    else [Join [s.dstDir, s.urlPrefix, param ++ ".html".toList]]) ++
  [Join [s.dstDir, s.urlPrefix, param, "index.html".toList],
   Join [s.dstDir, s.urlPrefix, TrimSuffix param ['/'] ++ ".html".toList],
   Join [s.dstDir, s.urlPrefix, param]]

/-- The files passed to `serveFile` during a request, in order. -/
def attempts (st : State) : List GoString :=
  st.trace.filterMap fun e =>
    match e with
    | Event.attempt file => some file
    | _ => none

/-- An environment with an empty file system: no file exists, the clock
reads zero, there are no notes. -/
def emptyEnv : Env where
  IsFile := fun _ => false
  ReadFile := fun _ => Except.error "no such file".toList
  Parse := fun _ _ => none
  Execute := fun _ _ => none
  ServeFile := fun _ => ([200], none)
  Unix := fun _ => 0
  ns := []
  Expand := fun template _ => template

/-- All candidates of a request path, in order: the list `candidates` for a
path without extension, the verbatim path alone for a path with one. -/
def allCandidates (s : Server) (param : GoString) : List GoString :=
  if Ext param = [] ∨ Ext param = ['.'] then candidates s param
  else [Join [s.dstDir, s.urlPrefix, param]]

/-- An environment in which `dest/a.html` and `dest/a/index.html` exist and
can be read, and `dest/a.html` does not parse as a template. -/
def brokenEnv : Env where
  IsFile := fun file =>
    file == "dest/a.html".toList || file == "dest/a/index.html".toList
  ReadFile := fun _ => Except.ok "<p>\x7b\x7b</p>".toList
  Parse := fun file _ =>
    if file = "dest/a.html".toList then some "template: unexpected EOF".toList else none
  Execute := fun _ _ => none
  ServeFile := fun _ => ([200], none)
  Unix := fun _ => 0
  ns := []
  Expand := fun template _ => template

/-- An environment in which every file exists, the clock is set before 1970
(so that `GenNote` panics), and `http.ServeFile` panics after it has written
the status 200. -/
def panicEnv : Env where
  IsFile := fun _ => true
  ReadFile := fun _ => Except.ok "<p>hello</p>".toList
  Parse := fun _ _ => none
  Execute := fun _ _ => none
  ServeFile := fun _ => ([200], some "write: broken pipe".toList)
  Unix := fun _ => -1
  ns := ["a".toList, "b".toList]
  Expand := fun template _ => template

/-- The state a piece of the handler ends in. -/
def Res.state {α : Type} : Res α → State
  | Res.ok _ st => st
  | Res.panicked _ st => st

/-- The value a piece of the handler returns; `none` when it panics. -/
def Res.value? {α : Type} : Res α → Option α
  | Res.ok a _ => some a
  | Res.panicked _ _ => none

/-- The candidate `file` exists and ends in `.html`, but reading it fails, or
parsing the rewritten text as a template fails, in the state `st`. -/
def htmlFails (env : Env) (file : GoString) (st : State) : Prop :=
  env.IsFile file = true ∧ HasSuffix file ".html".toList = true ∧
    ((∃ err, env.ReadFile file = Except.error err) ∨
      (∃ data note err, env.ReadFile file = Except.ok data ∧
        GenNote env.ns (env.Unix st.ticks) = some note ∧
        env.Parse file (rewrite env.Expand note data) = some err))

/-- The texts a pattern matches: every literal matches itself, a star (greedy
or not) matches any run of characters of its class. -/
def Matches : List Item → GoString → Prop
  | [], m => m = []
  | Item.lit c :: items, m => ∃ t, m = c :: t ∧ Matches items t
  | Item.star cls :: items, m =>
    ∃ a t, m = a ++ t ∧ (∀ x ∈ a, cls x = true) ∧ Matches items t
  | Item.starLazy cls :: items, m =>
    ∃ a t, m = a ++ t ∧ (∀ x ∈ a, cls x = true) ∧ Matches items t

/-- The text `s` contains a match of the pattern. -/
def containsMatch (re : List Item) (s : GoString) : Prop :=
  ∃ before m after, s = before ++ m ++ after ∧ Matches re m

/-! ## Lemmas on `path.Clean` and `path.Join` -/

theorem cleanLoop_nil (rooted : Bool) (fuel : Nat) (out : GoString) (dotdot : Nat) :
    cleanLoop rooted fuel [] out dotdot = out := by
  cases fuel <;> simp [cleanLoop]

theorem atElemEnd_append_slash (l : GoString) : atElemEnd (l ++ ['/']) = atElemEnd l := by
  cases l <;> simp [atElemEnd]

theorem dropWhile_length_le (f : Char → Bool) (l : GoString) :
    (l.dropWhile f).length ≤ l.length := by
  induction l with
  | nil => simp
  | cons a l ih =>
    simp only [List.dropWhile_cons]
    split
    · simp only [List.length_cons]; omega
    · exact Nat.le_refl _

theorem takeWhile_append_slash (l : GoString) :
    (l ++ ['/']).takeWhile (fun x => x != '/') = l.takeWhile (fun x => x != '/') := by
  induction l with
  | nil => simp
  | cons a l ih =>
    simp only [List.cons_append, List.takeWhile_cons]
    split
    · rw [ih]
    · rfl

theorem dropWhile_append_slash (l : GoString) :
    (l ++ ['/']).dropWhile (fun x => x != '/') = l.dropWhile (fun x => x != '/') ++ ['/'] := by
  induction l with
  | nil => simp
  | cons a l ih =>
    simp only [List.cons_append, List.dropWhile_cons]
    split
    · rw [ih]
    · rfl

/-- The loop of `path.Clean` never runs out of fuel: two amounts of fuel that
cover the input give the same result. -/
theorem cleanLoop_fuel (rooted : Bool) (f1 : Nat) :
    ∀ (f2 : Nat) (path out : GoString) (dotdot : Nat),
      path.length ≤ f1 → path.length ≤ f2 →
      cleanLoop rooted f1 path out dotdot = cleanLoop rooted f2 path out dotdot := by
  induction f1 with
  | zero =>
    intro f2 path out dotdot h1 _
    have : path = [] := List.length_eq_zero.mp (Nat.le_zero.mp h1)
    subst this
    rw [cleanLoop_nil, cleanLoop_nil]
  | succ f1 ih =>
    intro f2 path out dotdot h1 h2
    cases path with
    | nil => rw [cleanLoop_nil, cleanLoop_nil]
    | cons c rest =>
      cases f2 with
      | zero => simp at h2
      | succ f2 =>
        simp only [List.length_cons, Nat.add_le_add_iff_right] at h1 h2
        have ht1 : rest.tail.length ≤ f1 := by simp only [List.length_tail]; omega
        have ht2 : rest.tail.length ≤ f2 := by simp only [List.length_tail]; omega
        have hd := dropWhile_length_le (fun x => x != '/') rest
        simp only [cleanLoop]
        split
        · exact ih _ _ _ _ h1 h2
        · split
          · exact ih _ _ _ _ h1 h2
          · split
            · split
              · exact ih _ _ _ _ ht1 ht2
              · split
                · exact ih _ _ _ _ ht1 ht2
                · exact ih _ _ _ _ ht1 ht2
            · exact ih _ _ _ _ (by omega) (by omega)

/-- A slash at the end of the input does not change the result of the loop
of `path.Clean`. -/
theorem cleanLoop_append_slash (rooted : Bool) (f1 : Nat) :
    ∀ (f2 : Nat) (path out : GoString) (dotdot : Nat),
      path.length ≤ f1 → path.length + 1 ≤ f2 →
      cleanLoop rooted f2 (path ++ ['/']) out dotdot = cleanLoop rooted f1 path out dotdot := by
  induction f1 with
  | zero =>
    intro f2 path out dotdot h1 h2
    have : path = [] := List.length_eq_zero.mp (Nat.le_zero.mp h1)
    subst this
    cases f2 with
    | zero => simp at h2
    | succ f2 => simp [cleanLoop, cleanLoop_nil]
  | succ f1 ih =>
    intro f2 path out dotdot h1 h2
    cases f2 with
    | zero => simp at h2
    | succ f2 =>
      cases path with
      | nil => simp [cleanLoop, cleanLoop_nil]
      | cons c rest =>
        simp only [List.length_cons, Nat.add_le_add_iff_right] at h1 h2
        have hd := dropWhile_length_le (fun x => x != '/') rest
        simp only [cleanLoop, List.cons_append, atElemEnd_append_slash,
          takeWhile_append_slash, dropWhile_append_slash]
        split
        · exact ih _ _ _ _ h1 h2
        · split
          · exact ih _ _ _ _ h1 h2
          · cases rest with
            | nil =>
              simp only [List.nil_append, List.head?_cons, List.head?_nil, List.tail_cons,
                List.tail_nil, List.dropWhile_nil, List.takeWhile_nil, atElemEnd]
              simp only [Option.some.injEq, Char.reduceEq, false_and, and_false, reduceCtorEq,
                if_false]
              exact ih f2 [] _ _ (Nat.zero_le _) h2
            | cons d rest2 =>
              simp only [List.length_cons] at h1 h2 hd
              simp only [List.cons_append, List.head?_cons, List.tail_cons,
                atElemEnd_append_slash]
              split
              · split
                · exact ih _ _ _ _ (by omega) (by omega)
                · split
                  · exact ih _ _ _ _ (by omega) (by omega)
                  · exact ih _ _ _ _ (by omega) (by omega)
              · exact ih _ _ _ _ (by omega) (by omega)

/-- A slash appended to a non-empty path does not change `path.Clean`. -/
theorem Clean_append_slash (x : GoString) (hx : x ≠ []) : Clean (x ++ ['/']) = Clean x := by
  cases x with
  | nil => exact absurd rfl hx
  | cons c rest =>
    simp only [Clean, List.cons_append]
    split
    · rw [cleanLoop_append_slash true rest.length _ rest _ _ (Nat.le_refl _) (by simp)]
    · have h := cleanLoop_append_slash false (c :: rest).length ((c :: rest) ++ ['/']).length
        (c :: rest) [] 0 (Nat.le_refl _) (by simp)
      simp only [List.cons_append] at h
      rw [h]

theorem TrimSuffix_slash_of_not (param : GoString) (h : HasSuffix param ['/'] = false) :
    TrimSuffix param ['/'] = param := by
  simp [TrimSuffix, h]

theorem TrimSuffix_slash_append (param : GoString) (h : HasSuffix param ['/'] = true) :
    TrimSuffix param ['/'] ++ ['/'] = param := by
  simp only [TrimSuffix, h, if_true]
  simp only [HasSuffix, Bool.and_eq_true, beq_iff_eq, decide_eq_true_eq] at h
  have h2 := List.take_append_drop (param.length - ['/'].length) param
  rw [h.2] at h2
  exact h2

/-- The last candidate of `serveFiles`: joining the path with or without its
final slash gives the same file, as `path.Join` cleans the result. -/
theorem Join_TrimSuffix (d p param : GoString) (hp : p ≠ []) :
    Join [d, p, TrimSuffix param ['/']] = Join [d, p, param] := by
  cases h : HasSuffix param ['/'] with
  | false => rw [TrimSuffix_slash_of_not param h]
  | true =>
    have hq := TrimSuffix_slash_append param h
    generalize TrimSuffix param ['/'] = q at hq
    subst hq
    simp only [Join, stringsJoin, hp, ne_eq, not_false_eq_true, if_true]
    split
    · have e : d ++ ['/'] ++ (p ++ ['/'] ++ (q ++ ['/'])) = (d ++ ['/'] ++ (p ++ ['/'] ++ q)) ++ ['/'] := by
        simp [List.append_assoc]
      rw [e, Clean_append_slash _ (by simp [hp])]
    · have e : p ++ ['/'] ++ (q ++ ['/']) = (p ++ ['/'] ++ q) ++ ['/'] := by
        simp [List.append_assoc]
      rw [e, Clean_append_slash _ (by simp [hp])]

/-! ## Lemmas on the handler -/

theorem attempts_emit_attempt (st : State) (file : GoString) :
    attempts (st.emit (Event.attempt file)) = attempts st ++ [file] := by
  simp [attempts, State.emit, List.filterMap_append]

theorem foldl_WriteHeader_trace (hs : List Int) :
    ∀ st : State, (hs.foldl WriteHeader st).trace = st.trace := by
  induction hs with
  | nil => intro st; rfl
  | cons h hs ih => intro st; rw [List.foldl_cons, ih]; rfl

theorem foldl_WriteHeader_ticks (hs : List Int) :
    ∀ st : State, (hs.foldl WriteHeader st).ticks = st.ticks := by
  induction hs with
  | nil => intro st; rfl
  | cons h hs ih => intro st; rw [List.foldl_cons, ih]; rfl

theorem genNote_trace (env : Env) (st : State) :
    (genNote env st).state.trace = st.trace ∧ (genNote env st).state.w = st.w := by
  unfold genNote
  split
  · exact ⟨rfl, rfl⟩
  · split <;> exact ⟨rfl, rfl⟩

theorem readAndReplacedFile_trace (env : Env) (file : GoString) (st : State) :
    (readAndReplacedFile env file st).state.trace = st.trace ∧
      (readAndReplacedFile env file st).state.w = st.w := by
  unfold readAndReplacedFile
  split
  · exact ⟨rfl, rfl⟩
  · have h := genNote_trace env st
    split
    · rename_i heq; rw [heq] at h; exact h
    · rename_i heq; rw [heq] at h; exact h

/-- Every call of `serveFile` is one attempt, of the file it is given. -/
theorem attempts_serveFile (env : Env) (s : Server) (file : GoString) (st : State) :
    attempts (serveFile env s file st).state = attempts st ++ [file] := by
  have key : ∀ r : Res (Except GoString GoString),
      r = readAndReplacedFile env file ((st.emit (Event.attempt file)).emit (Event.debug file)) →
      attempts r.state = attempts st ++ [file] := by
    intro r hr
    rw [hr, attempts, (readAndReplacedFile_trace env file _).1]
    simp [attempts, State.emit, List.filterMap_append]
  unfold serveFile
  simp only []
  split
  · split
    · split <;>
        simp [Res.state, attempts, foldl_WriteHeader_trace, State.emit, List.filterMap_append]
    · split
      · rename_i heq
        have := key _ heq.symm
        simpa [Res.state] using this
      · rename_i heq
        have := key _ heq.symm
        simp only [Res.state] at this ⊢
        simpa [attempts, State.emit, List.filterMap_append] using this
      · rename_i heq
        have := key _ heq.symm
        simp only [Res.state] at this
        simp only [attempts] at this
        split
        · simp [Res.state, attempts, State.emit, List.filterMap_append, this]
        · split <;> simp [Res.state, attempts, State.emit, List.filterMap_append, this]
  · simp [Res.state, attempts, State.emit, List.filterMap_append]

/-- A call of `serveFile` that returns `false` leaves the wrapper as it was. -/
theorem serveFile_false_w (env : Env) (s : Server) (file : GoString) (st st1 : State)
    (h : serveFile env s file st = Res.ok false st1) : st1.w = st.w := by
  have key : ∀ r : Res (Except GoString GoString),
      r = readAndReplacedFile env file ((st.emit (Event.attempt file)).emit (Event.debug file)) →
      r.state.w = st.w := by
    intro r hr
    rw [hr, (readAndReplacedFile_trace env file _).2]
    rfl
  unfold serveFile at h
  simp only [] at h
  split at h
  · split at h
    · split at h <;> simp at h
    · split at h
      · simp at h
      · rename_i heq
        have := key _ heq.symm
        simp only [Res.ok.injEq, true_and] at h
        rw [← h]
        simpa [Res.state, State.emit] using this
      · rename_i heq
        have := key _ heq.symm
        split at h
        · simp only [Res.ok.injEq, true_and] at h
          rw [← h]
          simpa [Res.state, State.emit] using this
        · split at h <;> simp at h
  · simp only [Res.ok.injEq, true_and] at h
    rw [← h]
    rfl

theorem genNote_of_GenNote (env : Env) (st : State) (note : GoString)
    (h : GenNote env.ns (env.Unix st.ticks) = some note) :
    ∃ st1, genNote env st = Res.ok note st1 ∧ st1.w = st.w ∧ st1.trace = st.trace := by
  unfold genNote
  split
  · rename_i hlen
    have : note = [] := by
      simp only [GenNote, hlen, if_true, Option.some.injEq] at h
      exact h.symm
    subst this
    exact ⟨st, rfl, rfl, rfl⟩
  · rw [h]
    exact ⟨_, rfl, rfl, rfl⟩

/-- An `.html` candidate that cannot be read or parsed is reported like a
missing file: `serveFile` returns `false` and the wrapper is untouched. -/
theorem serveFile_htmlFails (env : Env) (s : Server) (file : GoString) (st : State)
    (h : htmlFails env file st) :
    ∃ st1, serveFile env s file st = Res.ok false st1 ∧ st1.w = st.w := by
  obtain ⟨hfile, hhtml, hfail⟩ := h
  have hex : ∃ st1, serveFile env s file st = Res.ok false st1 := by
    rcases hfail with ⟨err, herr⟩ | ⟨data, note, err, hdata, hnote, hparse⟩
    · simp only [serveFile, hfile, hhtml, if_true, not_true_eq_false, if_false,
        readAndReplacedFile, herr]
      exact ⟨_, rfl⟩
    · obtain ⟨st1, hg, -, -⟩ := genNote_of_GenNote env
        ((st.emit (Event.attempt file)).emit (Event.debug file)) note hnote
      simp only [serveFile, hfile, hhtml, if_true, not_true_eq_false, if_false,
        readAndReplacedFile, hdata, hg, buildTemplate, hparse]
      exact ⟨_, rfl⟩
  obtain ⟨st1, h1⟩ := hex
  exact ⟨st1, h1, serveFile_false_w env s file st st1 h1⟩

theorem attemptInOrder_append (f : GoString → State → Res Bool) (pre post : List GoString) :
    ∀ st : State, attemptInOrder f (pre ++ post) st =
      match attemptInOrder f pre st with
      | Res.ok false st1 => attemptInOrder f post st1
      | r => r := by
  induction pre with
  | nil => intro st; rfl
  | cons file pre ih =>
    intro st
    simp only [List.cons_append, attemptInOrder]
    cases h : f file st with
    | ok a st1 =>
      cases a with
      | true => rfl
      | false => exact ih st1
    | panicked v st1 => rfl

/-- The attempts of `attemptInOrder (serveFile env s)` are an initial part of
the list, and the whole list when the result is `false`. -/
theorem attempts_attemptInOrder (env : Env) (s : Server) (files : List GoString) :
    ∀ st : State, ∃ k, k ≤ files.length ∧
      attempts (attemptInOrder (serveFile env s) files st).state = attempts st ++ files.take k ∧
      ((attemptInOrder (serveFile env s) files st).value? = some false → k = files.length) := by
  induction files with
  | nil => intro st; exact ⟨0, Nat.le_refl _, by simp [attemptInOrder, Res.state], fun _ => rfl⟩
  | cons file files ih =>
    intro st
    have ha := attempts_serveFile env s file st
    cases h : serveFile env s file st with
    | ok a st1 =>
      rw [h] at ha
      simp only [Res.state] at ha
      cases a with
      | true =>
        refine ⟨1, by simp, ?_, ?_⟩
        · simp [attemptInOrder, h, Res.state, ha]
        · simp [attemptInOrder, h, Res.value?]
      | false =>
        obtain ⟨k, hk, hk2, hk3⟩ := ih st1
        refine ⟨k + 1, by simp [hk], ?_, ?_⟩
        · simp only [attemptInOrder, h]
          rw [hk2, ha]
          simp
        · simp only [attemptInOrder, h]
          intro hv
          rw [hk3 hv]
          rfl
    | panicked v st1 =>
      rw [h] at ha
      simp only [Res.state] at ha
      refine ⟨1, by simp, ?_, ?_⟩
      · simp [attemptInOrder, h, Res.state, ha]
      · simp [attemptInOrder, h, Res.value?]

/-- The `if f() { return true }` chain of `serveFiles` is `attemptInOrder`. -/
theorem orElse_eq_attemptInOrder (f : GoString → State → Res Bool) (file : GoString)
    (files : List GoString) (st : State) :
    (f file st).orElse (fun st1 => attemptInOrder f files st1) =
      attemptInOrder f (file :: files) st := by
  simp only [attemptInOrder, Res.orElse]

/-- With an extension, `serveFiles` is the attempt of the verbatim path. -/
theorem serveFiles_ext (env : Env) (s : Server) (param : GoString) (st : State)
    (h1 : Ext param ≠ []) (h2 : Ext param ≠ ['.']) :
    serveFiles env s param st =
      attemptInOrder (serveFile env s) [Join [s.dstDir, s.urlPrefix, param]] st := by
  simp only [serveFiles, h1, h2, or_self, if_false]
  exact orElse_eq_attemptInOrder (serveFile env s) _ [] st

/-- Without an extension, `serveFiles` is the attempt of `candidates` in order. -/
theorem serveFiles_noext (env : Env) (s : Server) (param : GoString) (st : State)
    (hext : Ext param = [] ∨ Ext param = ['.']) (hp : s.urlPrefix ≠ []) :
    serveFiles env s param st = attemptInOrder (serveFile env s) (candidates s param) st := by
  simp only [serveFiles, hext, if_true, Join_TrimSuffix _ _ _ hp]
  have e3 : ∀ (a b c : GoString) (st : State),
      ((serveFile env s a st).orElse fun st =>
        (serveFile env s b st).orElse fun st =>
        (serveFile env s c st).orElse fun st => Res.ok false st) =
      attemptInOrder (serveFile env s) [a, b, c] st := by
    intro a b c st
    rw [← orElse_eq_attemptInOrder, ← funext (orElse_eq_attemptInOrder (serveFile env s) b [c]),
      ← funext (orElse_eq_attemptInOrder (serveFile env s) c [])]
    rfl
  cases hs : HasSuffix param ['/'] with
  | true =>
    simp only [candidates, hs, if_true, not_true_eq_false, if_false, List.nil_append,
      Res.orElse]
    exact e3 _ _ _ st
  | false =>
    simp only [candidates, hs, Bool.false_eq_true, not_false_eq_true, if_true, if_false,
      List.singleton_append]
    rw [← orElse_eq_attemptInOrder]
    congr 1

/-! ## Lemmas on the marker pattern -/

theorem starGreedy_sound (cls : Char → Bool) (k : GoString → Option GoString)
    (P : GoString → Prop) (hk : ∀ s r, k s = some r → ∃ m, s = m ++ r ∧ P m) :
    ∀ s r, starGreedy cls k s = some r →
      ∃ a t, s = (a ++ t) ++ r ∧ (∀ x ∈ a, cls x = true) ∧ P t := by
  intro s
  induction s with
  | nil =>
    intro r h
    obtain ⟨m, hm, hP⟩ := hk _ _ h
    exact ⟨[], m, by simpa using hm, by simp, hP⟩
  | cons c cs ih =>
    intro r h
    have viaK : k (c :: cs) = some r →
        ∃ a t, c :: cs = (a ++ t) ++ r ∧ (∀ x ∈ a, cls x = true) ∧ P t := by
      intro h'
      obtain ⟨m, hm, hP⟩ := hk _ _ h'
      exact ⟨[], m, by simpa using hm, by simp, hP⟩
    simp only [starGreedy] at h
    split at h
    · rename_i hc
      split at h
      · rename_i r' hr'
        obtain ⟨a, t, hs, ha, hP⟩ := ih r' hr'
        simp only [Option.some.injEq] at h
        subst h
        refine ⟨c :: a, t, by simp [hs], ?_, hP⟩
        intro x hx
        rcases List.mem_cons.mp hx with rfl | hx
        · exact hc
        · exact ha x hx
      · exact viaK h
    · exact viaK h

theorem starShortest_sound (cls : Char → Bool) (k : GoString → Option GoString)
    (P : GoString → Prop) (hk : ∀ s r, k s = some r → ∃ m, s = m ++ r ∧ P m) :
    ∀ s r, starShortest cls k s = some r →
      ∃ a t, s = (a ++ t) ++ r ∧ (∀ x ∈ a, cls x = true) ∧ P t := by
  intro s
  induction s with
  | nil =>
    intro r h
    obtain ⟨m, hm, hP⟩ := hk _ _ h
    exact ⟨[], m, by simpa using hm, by simp, hP⟩
  | cons c cs ih =>
    intro r h
    simp only [starShortest] at h
    split at h
    · rename_i r' hr'
      simp only [Option.some.injEq] at h
      subst h
      obtain ⟨m, hm, hP⟩ := hk _ _ hr'
      exact ⟨[], m, by simpa using hm, by simp, hP⟩
    · split at h
      · rename_i hc
        obtain ⟨a, t, hs, ha, hP⟩ := ih r h
        refine ⟨c :: a, t, by simp [hs], ?_, hP⟩
        intro x hx
        rcases List.mem_cons.mp hx with rfl | hx
        · exact hc
        · exact ha x hx
      · simp at h

/-- What the backtracking search reports is a match: the text it consumes is
matched by the pattern. -/
theorem matchItems_sound (items : List Item) :
    ∀ s r, matchItems items s = some r → ∃ m, s = m ++ r ∧ Matches items m := by
  induction items with
  | nil =>
    intro s r h
    simp only [matchItems, Option.some.injEq] at h
    exact ⟨[], by simp [h], rfl⟩
  | cons item items ih =>
    intro s r h
    cases item with
    | lit c =>
      cases s with
      | nil => simp [matchItems] at h
      | cons d ds =>
        simp only [matchItems] at h
        split at h
        · rename_i hd
          obtain ⟨m, hm, hM⟩ := ih ds r h
          exact ⟨c :: m, by simp [hd, hm], m, rfl, hM⟩
        · simp at h
    | star cls =>
      simp only [matchItems] at h
      obtain ⟨a, t, hs, ha, hM⟩ := starGreedy_sound cls _ (Matches items) ih s r h
      exact ⟨a ++ t, hs, a, t, rfl, ha, hM⟩
    | starLazy cls =>
      simp only [matchItems] at h
      obtain ⟨a, t, hs, ha, hM⟩ := starShortest_sound cls _ (Matches items) ih s r h
      exact ⟨a ++ t, hs, a, t, rfl, ha, hM⟩

/-- What `findMatch` reports is a match of the pattern inside the text. -/
theorem findMatch_sound (re : List Item) :
    ∀ s before m after, findMatch re s = some (before, m, after) →
      s = before ++ m ++ after ∧ Matches re m := by
  intro s
  induction s with
  | nil =>
    intro before m after h
    simp only [findMatch] at h
    split at h
    · rename_i r hr
      obtain ⟨m', hm', hM⟩ := matchItems_sound re _ _ hr
      simp only [Option.some.injEq, Prod.mk.injEq] at h
      obtain ⟨rfl, rfl, rfl⟩ := h
      have hnil : m' = [] ∧ r = [] := by simpa using hm'.symm
      rw [hnil.1] at hM
      rw [hnil.2]
      exact ⟨rfl, hM⟩
    · simp at h
  | cons c cs ih =>
    intro before m after h
    simp only [findMatch] at h
    split at h
    · rename_i r hr
      obtain ⟨m', hm', hM⟩ := matchItems_sound re _ _ hr
      simp only [Option.some.injEq, Prod.mk.injEq] at h
      obtain ⟨rfl, rfl, rfl⟩ := h
      rw [hm']
      simp only [List.length_append, Nat.add_sub_cancel, List.take_left', List.nil_append]
      exact ⟨trivial, hM⟩
    · split at h
      · rename_i b' m' a' hrec
        simp only [Option.some.injEq, Prod.mk.injEq] at h
        obtain ⟨rfl, rfl, rfl⟩ := h
        obtain ⟨hs, hM⟩ := ih _ _ _ hrec
        exact ⟨by simp [hs], hM⟩
      · simp at h

theorem findMatch_none (re : List Item) (s : GoString) (h : ¬ containsMatch re s) :
    findMatch re s = none := by
  cases hf : findMatch re s with
  | none => rfl
  | some t =>
    obtain ⟨before, m, after⟩ := t
    obtain ⟨hs, hM⟩ := findMatch_sound re s before m after hf
    exact absurd ⟨before, m, after, hs, hM⟩ h

theorem replaceAllLoop_none (re : List Item) (repl : GoString → GoString) (fuel : Nat)
    (s : GoString) (h : findMatch re s = none) : replaceAllLoop re repl fuel s = s := by
  cases fuel with
  | zero => rfl
  | succ fuel => simp [replaceAllLoop, h]

/-- The loop of `ReplaceAllString` never runs out of fuel when every match of
the pattern is non-empty: two amounts of fuel above the length of the text
give the same result. -/
theorem replaceAllLoop_fuel (re : List Item) (repl : GoString → GoString)
    (hne : ∀ m, Matches re m → m ≠ []) (f1 : Nat) :
    ∀ (f2 : Nat) (s : GoString), s.length < f1 → s.length < f2 →
      replaceAllLoop re repl f1 s = replaceAllLoop re repl f2 s := by
  induction f1 with
  | zero => intro f2 s h1 _; simp at h1
  | succ f1 ih =>
    intro f2 s h1 h2
    cases f2 with
    | zero => simp at h2
    | succ f2 =>
      simp only [replaceAllLoop]
      cases hf : findMatch re s with
      | none => rfl
      | some t =>
        obtain ⟨before, m, after⟩ := t
        obtain ⟨hs, hM⟩ := findMatch_sound re s before m after hf
        have hm : 0 < m.length := List.length_pos.mpr (hne m hM)
        have hl : s.length = before.length + m.length + after.length := by
          rw [hs]; simp only [List.length_append]
        simp only []
        rw [ih f2 after (by omega) (by omega)]

theorem starGreedy_of_k (cls : Char → Bool) (k : GoString → Option GoString) (s : GoString)
    (h : (k s).isSome = true) : (starGreedy cls k s).isSome = true := by
  cases s with
  | nil => simpa [starGreedy] using h
  | cons c cs =>
    simp only [starGreedy]
    split
    · split
      · rfl
      · exact h
    · exact h

theorem starGreedy_complete (cls : Char → Bool) (k : GoString → Option GoString)
    (a : GoString) (ha : ∀ x ∈ a, cls x = true) (rest : GoString)
    (h : (k rest).isSome = true) : (starGreedy cls k (a ++ rest)).isSome = true := by
  induction a with
  | nil => exact starGreedy_of_k cls k rest h
  | cons x a ih =>
    have hx : cls x = true := ha x (List.mem_cons_self x a)
    have hrec := ih (fun y hy => ha y (List.mem_cons_of_mem x hy))
    simp only [List.cons_append, starGreedy, hx, if_true]
    split
    · rfl
    · rename_i hnone
      have hnone2 : starGreedy cls k (a ++ rest) = none := hnone
      rw [hnone2] at hrec
      exact absurd hrec (by simp)

theorem starShortest_of_k (cls : Char → Bool) (k : GoString → Option GoString)
    (s : GoString) (h : (k s).isSome = true) : (starShortest cls k s).isSome = true := by
  cases s with
  | nil => simpa [starShortest] using h
  | cons c cs =>
    simp only [starShortest]
    split
    · rfl
    · rename_i hnone
      rw [hnone] at h
      exact absurd h (by simp)

theorem starShortest_complete (cls : Char → Bool) (k : GoString → Option GoString)
    (a : GoString) (ha : ∀ x ∈ a, cls x = true) (rest : GoString)
    (h : (k rest).isSome = true) : (starShortest cls k (a ++ rest)).isSome = true := by
  induction a with
  | nil => exact starShortest_of_k cls k rest h
  | cons x a ih =>
    have hx : cls x = true := ha x (List.mem_cons_self x a)
    have hrec := ih (fun y hy => ha y (List.mem_cons_of_mem x hy))
    simp only [List.cons_append, starShortest, hx, if_true]
    split
    · rfl
    · exact hrec

/-- The backtracking search finds a match wherever the pattern has one. -/
theorem matchItems_complete (items : List Item) :
    ∀ m r, Matches items m → (matchItems items (m ++ r)).isSome = true := by
  induction items with
  | nil =>
    intro m r h
    simp only [Matches] at h
    subst h
    rfl
  | cons item items ih =>
    intro m r h
    cases item with
    | lit c =>
      simp only [Matches] at h
      obtain ⟨t, rfl, ht⟩ := h
      simp only [List.cons_append, matchItems, if_true]
      exact ih t r ht
    | star cls =>
      simp only [Matches] at h
      obtain ⟨a, t, rfl, ha, ht⟩ := h
      simp only [matchItems, List.append_assoc]
      exact starGreedy_complete cls _ a ha (t ++ r) (ih t r ht)
    | starLazy cls =>
      simp only [Matches] at h
      obtain ⟨a, t, rfl, ha, ht⟩ := h
      simp only [matchItems, List.append_assoc]
      exact starShortest_complete cls _ a ha (t ++ r) (ih t r ht)

theorem findMatch_complete (re : List Item) (before m after : GoString)
    (h : Matches re m) : (findMatch re (before ++ m ++ after)).isSome = true := by
  have hm := matchItems_complete re m after h
  induction before with
  | nil =>
    simp only [List.nil_append]
    cases hs : m ++ after with
    | nil =>
      rw [hs] at hm
      simp only [findMatch]
      split
      · rfl
      · rename_i hnone
        rw [hnone] at hm
        exact absurd hm (by simp)
    | cons c cs =>
      rw [hs] at hm
      simp only [findMatch]
      split
      · rfl
      · rename_i hnone
        rw [hnone] at hm
        exact absurd hm (by simp)
  | cons b before ih =>
    have e : b :: before ++ m ++ after = b :: (before ++ m ++ after) := rfl
    rw [e]
    simp only [findMatch]
    split
    · rfl
    · split
      · rfl
      · rename_i hnone
        rw [hnone] at ih
        exact absurd ih (by simp)

/-- The search of `ReplaceAllString` comes back empty exactly on the texts
that contain no match of the pattern. -/
theorem findMatch_eq_none_iff (re : List Item) (s : GoString) :
    findMatch re s = none ↔ ¬ containsMatch re s := by
  constructor
  · rintro h ⟨before, m, after, hs, hM⟩
    have := findMatch_complete re before m after hM
    rw [← hs, h] at this
    exact absurd this (by simp)
  · exact findMatch_none re s

theorem Matches_lits (l : GoString) (items : List Item) :
    ∀ m, Matches (l.map Item.lit ++ items) m → ∃ t, m = l ++ t ∧ Matches items t := by
  induction l with
  | nil => intro m h; exact ⟨m, rfl, h⟩
  | cons c l ih =>
    intro m h
    simp only [List.map_cons, List.cons_append, Matches] at h
    obtain ⟨t, rfl, ht⟩ := h
    obtain ⟨t', rfl, ht'⟩ := ih t ht
    exact ⟨t', rfl, ht'⟩

/-- Every match of the marker pattern begins with the literal
`style="color:darkgrey`. -/
theorem Matches_marker_open (m : GoString) (h : Matches marker m) :
    ∃ t, m = markerOpen ++ t := by
  unfold marker at h
  rw [List.append_assoc] at h
  obtain ⟨t, ht, -⟩ := Matches_lits markerOpen _ m h
  exact ⟨t, ht⟩

theorem Matches_marker_ne_nil (m : GoString) (h : Matches marker m) : m ≠ [] := by
  obtain ⟨t, rfl⟩ := Matches_marker_open m h
  simp [markerOpen]

theorem HasPrefix_append (x rest : GoString) : HasPrefix (x ++ rest) x = true := by
  simp [HasPrefix]

theorem Contains_of_infix (x : GoString) (before rest : GoString) :
    Contains (before ++ x ++ rest) x = true := by
  induction before with
  | nil =>
    simp only [List.nil_append]
    cases x with
    | nil => cases rest <;> simp [Contains, HasPrefix]
    | cons c x =>
      have hpre := HasPrefix_append (c :: x) rest
      simp only [List.cons_append] at hpre ⊢
      rw [Contains, hpre]
      rfl
  | cons b before ih =>
    have e : b :: before ++ x ++ rest = b :: (before ++ x ++ rest) := rfl
    rw [e, Contains, ih]
    simp

/-- A text without the literal `style="color:darkgrey` holds no match of the
marker pattern. -/
theorem not_containsMatch_of_not_Contains (s : GoString)
    (h : Contains s markerOpen = false) : ¬ containsMatch marker s := by
  rintro ⟨before, m, after, hs, hM⟩
  obtain ⟨t, rfl⟩ := Matches_marker_open m hM
  have := Contains_of_infix markerOpen before (t ++ after)
  rw [hs] at h
  simp only [List.append_assoc] at h this
  rw [this] at h
  exact Bool.noConfusion h

/-- With an extension, `serveFiles` is the one call of `serveFile` on the
verbatim path. -/
theorem serveFiles_ext_serveFile (env : Env) (s : Server) (param : GoString) (st : State)
    (h1 : Ext param ≠ []) (h2 : Ext param ≠ ['.']) :
    serveFiles env s param st = serveFile env s (Join [s.dstDir, s.urlPrefix, param]) st := by
  simp only [serveFiles, h1, h2, or_self, if_false, Res.orElse]
  cases serveFile env s (Join [s.dstDir, s.urlPrefix, param]) st with
  | ok a st1 => cases a <;> rfl
  | panicked v st1 => rfl

theorem serveFiles_eq_allCandidates (env : Env) (s : Server) (param : GoString)
    (st : State) (hp : s.urlPrefix ≠ []) :
    serveFiles env s param st =
      attemptInOrder (serveFile env s) (allCandidates s param) st := by
  unfold allCandidates
  split
  · rename_i hext
    exact serveFiles_noext env s param st hext hp
  · rename_i hext
    exact serveFiles_ext env s param st (fun h => hext (Or.inl h)) (fun h => hext (Or.inr h))

theorem attempts_deferred (r : Res Unit) : attempts (deferred r) = attempts r.state := by
  cases r with
  | ok a st => simp [deferred, logger, attempts, State.emit, Res.state, List.filterMap_append]
  | panicked v st =>
    simp only [deferred, Res.state]
    split <;>
      simp [logger, httpError, WriteHeader, attempts, State.emit, List.filterMap_append]

theorem foldl_SetPrefix_ne_nil (ps : List GoString) :
    ∀ s : Server, s.urlPrefix ≠ [] → (ps.foldl SetPrefix s).urlPrefix ≠ [] := by
  induction ps with
  | nil => intro s h; exact h
  | cons p ps ih =>
    intro s _
    rw [List.foldl_cons]
    apply ih
    simp only [SetPrefix]
    split
    · simp
    · assumption

theorem orElse_false (r : Res Bool) (rest : State → Res Bool) (st2 : State)
    (h : r.orElse rest = Res.ok false st2) :
    ∃ st1, r = Res.ok false st1 ∧ rest st1 = Res.ok false st2 := by
  cases r with
  | ok a st1 =>
    cases a with
    | true => simp [Res.orElse] at h
    | false => exact ⟨st1, rfl, h⟩
  | panicked v st1 => simp [Res.orElse] at h

/-- A run of `serveFiles` that returns `false` leaves the wrapper as it was:
no status is captured and nothing is written. -/
theorem serveFiles_false_w (env : Env) (s : Server) (param : GoString) (st st2 : State)
    (h : serveFiles env s param st = Res.ok false st2) : st2.w = st.w := by
  unfold serveFiles at h
  simp only [] at h
  split at h
  · obtain ⟨sa, ha, h⟩ := orElse_false _ _ _ h
    obtain ⟨sb, hb, h⟩ := orElse_false _ _ _ h
    obtain ⟨sc, hc, h⟩ := orElse_false _ _ _ h
    obtain ⟨sd, hd, h⟩ := orElse_false _ _ _ h
    simp only [Res.ok.injEq, true_and] at h
    have wa : sa.w = st.w := by
      split at ha
      · exact serveFile_false_w env s _ _ _ ha
      · simp only [Res.ok.injEq, true_and] at ha
        rw [← ha]
    rw [← h, serveFile_false_w env s _ _ _ hd, serveFile_false_w env s _ _ _ hc,
      serveFile_false_w env s _ _ _ hb, wa]
  · obtain ⟨sa, ha, h⟩ := orElse_false _ _ _ h
    simp only [Res.ok.injEq, true_and] at h
    rw [← h, serveFile_false_w env s _ _ _ ha]

/-- Every request under the prefix for which `serveFiles` returns `false` ends
with the captured status 0 and nothing written: `ServeHTTP` drops the result
of `serveFiles` on this path. -/
theorem unresolved_request_status_zero (env : Env) (s : Server) (path : GoString)
    (st : State) (h1 : path ≠ "favicon.ico".toList) (h2 : path ≠ "robots.txt".toList)
    (h3 : HasPrefix path s.urlPrefix = true)
    (h4 : serveFiles env s (TrimPrefix path s.urlPrefix) (initState env) = Res.ok false st) :
    (ServeHTTP env s path).w.status = 0 ∧ (ServeHTTP env s path).w.written = [] := by
  have hw := serveFiles_false_w env s _ _ _ h4
  have hh : handle env s path (initState env) = Res.ok () st := by
    unfold handle
    rw [if_neg (fun h => h.elim h1 h2), if_neg (by simp [h3]), h4]
  simp only [ServeHTTP, hh, deferred, logger, State.emit, hw]
  exact ⟨rfl, rfl⟩

/-! ## The claims -/

/-- C1 (the code departs from the claim): a request for a page that does not
exist, under the prefix, ends with no status captured and nothing written:
`serveFiles` returns `false`, and `ServeHTTP` drops that result instead of
replying 404 as it does for `favicon.ico`. -/
theorem missing_page_gets_no_404 :
    (serveFiles emptyEnv (New "dest".toList) "missing".toList
        (initState emptyEnv)).value? = some false ∧
      (ServeHTTP emptyEnv (New "dest".toList) "/missing".toList).w.status = 0 ∧
      (ServeHTTP emptyEnv (New "dest".toList) "/missing".toList).w.written = [] ∧
      (ServeHTTP emptyEnv (New "dest".toList) "favicon.ico".toList).w.status = 404 := by
  decide

/-- C2: for a request path whose extension is `""` or `"."`, `serveFiles`
attempts the candidates `path+".html"` (only without a final slash),
`path/index.html`, `TrimSuffix(path, "/")+".html"`, `path` in this order and
stops at the first one `serveFile` serves; the files it attempts are an
initial part of that list, the whole list when it returns `false`.  The
server is any server with a non-empty prefix, which is every server built by
`New` and `SetPrefix`. -/
theorem serveFiles_candidate_order (env : Env) (s : Server) (param : GoString) (st : State)
    (hext : Ext param = [] ∨ Ext param = ['.']) (hp : s.urlPrefix ≠ []) :
    serveFiles env s param st =
        attemptInOrder (serveFile env s)
          ((if HasSuffix param ['/'] then []
            else [Join [s.dstDir, s.urlPrefix, param ++ ".html".toList]]) ++
          [Join [s.dstDir, s.urlPrefix, param, "index.html".toList],
           Join [s.dstDir, s.urlPrefix, TrimSuffix param ['/'] ++ ".html".toList],
           Join [s.dstDir, s.urlPrefix, param]]) st ∧
      ∃ k, k ≤ (candidates s param).length ∧
        attempts (serveFiles env s param st).state =
          attempts st ++ (candidates s param).take k ∧
        ((serveFiles env s param st).value? = some false →
          k = (candidates s param).length) := by
  have h := serveFiles_noext env s param st hext hp
  refine ⟨h, ?_⟩
  rw [h]
  exact attempts_attemptInOrder env s (candidates s param) st

/-- C2 at a concrete request: the path `missing` on an empty file system. -/
theorem serveFiles_candidate_order_witness :
    (Ext "missing".toList = [] ∨ Ext "missing".toList = ['.']) ∧
      (New "dest".toList).urlPrefix ≠ [] ∧
      attempts (serveFiles emptyEnv (New "dest".toList) "missing".toList
        (initState emptyEnv)).state =
        ["dest/missing.html".toList, "dest/missing/index.html".toList,
          "dest/missing.html".toList, "dest/missing".toList] :=
  ⟨by decide, by decide,
    (congrArg (fun r => attempts r.state)
      (serveFiles_candidate_order emptyEnv (New "dest".toList) "missing".toList
        (initState emptyEnv) (by decide) (by decide)).1).trans (by decide)⟩

/-- C3: for a request path with an extension other than `"."`, `serveFiles`
is the single call of `serveFile` on the verbatim path `Join(dstDir, prefix,
path)`: this is the only file attempted, and the result is `true` exactly when
that call serves the file. -/
theorem serveFiles_verbatim_only (env : Env) (s : Server) (param : GoString) (st : State)
    (h1 : Ext param ≠ []) (h2 : Ext param ≠ ['.']) :
    serveFiles env s param st = serveFile env s (Join [s.dstDir, s.urlPrefix, param]) st ∧
      attempts (serveFiles env s param st).state =
        attempts st ++ [Join [s.dstDir, s.urlPrefix, param]] ∧
      ((serveFiles env s param st).value? = some true ↔
        (serveFile env s (Join [s.dstDir, s.urlPrefix, param]) st).value? = some true) := by
  have h := serveFiles_ext_serveFile env s param st h1 h2
  refine ⟨h, ?_, ?_⟩
  · rw [h]; exact attempts_serveFile env s _ st
  · rw [h]

/-- C3 at a concrete request: the path `style.css` on an empty file system. -/
theorem serveFiles_verbatim_only_witness :
    Ext "style.css".toList ≠ [] ∧ Ext "style.css".toList ≠ ['.'] ∧
      attempts (serveFiles emptyEnv (New "dest".toList) "style.css".toList
        (initState emptyEnv)).state = ["dest/style.css".toList] :=
  ⟨by decide, by decide,
    (serveFiles_verbatim_only emptyEnv (New "dest".toList) "style.css".toList
      (initState emptyEnv) (by decide) (by decide)).2.1.trans (by decide)⟩

/-- C4 (the claim as stated fails): in `brokenEnv` the first candidate
`dest/a.html` of the request path `a` exists, ends in `.html` and does not
parse; `serveFiles` nevertheless goes on to the next candidate
`dest/a/index.html`, serves it and returns `true`. -/
theorem html_failure_falls_through :
    htmlFails brokenEnv "dest/a.html".toList (initState brokenEnv) ∧
      (serveFiles brokenEnv (New "dest".toList) "a".toList
        (initState brokenEnv)).value? = some true ∧
      attempts (serveFiles brokenEnv (New "dest".toList) "a".toList
        (initState brokenEnv)).state =
        ["dest/a.html".toList, "dest/a/index.html".toList] :=
  ⟨⟨by decide, by decide,
      Or.inr ⟨"<p>\x7b\x7b</p>".toList, [], "template: unexpected EOF".toList, rfl, by decide,
        by decide⟩⟩,
    by decide, by decide⟩

/-- C4 (as amended): when a candidate exists and ends in `.html` but reading it
or parsing it fails, `serveFile` returns `false` for it and leaves the wrapper
untouched, and `serveFiles` goes on with the candidates after it, in order,
as after a missing file.  Here `file` is any candidate of the request, reached
in the state `stk` after the candidates `pre` before it were not served, and
`post` are the candidates after it. -/
theorem html_failure_continues (env : Env) (s : Server) (param : GoString) (st : State)
    (hp : s.urlPrefix ≠ []) (pre : List GoString) (file : GoString) (post : List GoString)
    (hc : allCandidates s param = pre ++ file :: post) (stk : State)
    (hpre : attemptInOrder (serveFile env s) pre st = Res.ok false stk)
    (hfail : htmlFails env file stk) :
    ∃ st1, serveFile env s file stk = Res.ok false st1 ∧ st1.w = stk.w ∧
      serveFiles env s param st = attemptInOrder (serveFile env s) post st1 := by
  obtain ⟨st1, h1, hw⟩ := serveFile_htmlFails env s file stk hfail
  refine ⟨st1, h1, hw, ?_⟩
  rw [serveFiles_eq_allCandidates env s param st hp, hc, attemptInOrder_append, hpre]
  simp only [attemptInOrder, h1]

/-- C4 (as amended) at a concrete request: the path `a` in `brokenEnv`. -/
theorem html_failure_continues_witness :
    ∃ st1, serveFile brokenEnv (New "dest".toList) "dest/a.html".toList
        (initState brokenEnv) = Res.ok false st1 ∧
      st1.w = (initState brokenEnv).w ∧
      serveFiles brokenEnv (New "dest".toList) "a".toList (initState brokenEnv) =
        attemptInOrder (serveFile brokenEnv (New "dest".toList))
          ["dest/a/index.html".toList, "dest/a.html".toList, "dest/a".toList] st1 :=
  html_failure_continues brokenEnv (New "dest".toList) "a".toList (initState brokenEnv)
    (by decide) [] "dest/a.html".toList
    ["dest/a/index.html".toList, "dest/a.html".toList, "dest/a".toList] (by decide)
    (initState brokenEnv) rfl
    ⟨by decide, by decide,
      Or.inr ⟨"<p>\x7b\x7b</p>".toList, [], "template: unexpected EOF".toList, rfl, by decide,
        by decide⟩⟩

/-- C5 (the claim as stated fails): with the clock before 1970 the remainder
`t % len(n)` is negative and the index expression panics. -/
theorem GenNote_negative_timestamp : GenNote ["a".toList, "b".toList] (-1) = none := by
  decide

/-- C5 (as amended): for every note list `n` and every timestamp `t ≥ 0`,
`GenNote` returns `""` when `n` is empty and otherwise `n[t mod len(n)]`, the
index being within the bounds of `n`. -/
theorem GenNote_of_nonneg (n : notes) (t : Int) (ht : 0 ≤ t) :
    (n = [] → GenNote n t = some []) ∧
      (n ≠ [] → ∃ h : (t % (n.length : Int)).toNat < n.length,
        GenNote n t = some (n.get ⟨(t % (n.length : Int)).toNat, h⟩)) := by
  constructor
  · intro h
    subst h
    rfl
  · intro h
    have hlen : 0 < n.length := List.length_pos.mpr h
    have hpos : (0 : Int) < (n.length : Int) := by exact_mod_cast hlen
    have h0 : 0 ≤ t % (n.length : Int) := Int.emod_nonneg t (by omega)
    have h1 : t % (n.length : Int) < (n.length : Int) := Int.emod_lt_of_pos t hpos
    have hidx : (t % (n.length : Int)).toNat < n.length := by omega
    refine ⟨hidx, ?_⟩
    have hmod : Int.tmod t (n.length : Int) = t % (n.length : Int) :=
      Int.tmod_eq_emod ht (by omega)
    simp only [GenNote, hmod]
    rw [if_neg (by omega), if_neg (by omega)]
    rw [List.getElem?_eq_getElem hidx]
    rfl

/-- C5 (as amended) at a concrete input: two notes, timestamp 3. -/
theorem GenNote_of_nonneg_witness :
    (0 : Int) ≤ 3 ∧ GenNote ["a".toList, "b".toList] 3 = some "b".toList :=
  ⟨by decide,
    ((GenNote_of_nonneg ["a".toList, "b".toList] 3 (by decide)).2 (by decide)).2.trans
      (by decide)⟩

/-- C6: a request whose path is neither `favicon.ico` nor `robots.txt` and
does not start with the prefix is answered by one 302 redirect to the prefix,
and nothing else happens before the access log: `serveFiles` is not called
and no candidate is attempted. -/
theorem redirect_outside_urlPrefix (env : Env) (s : Server) (path : GoString)
    (h1 : path ≠ "favicon.ico".toList) (h2 : path ≠ "robots.txt".toList)
    (h3 : HasPrefix path s.urlPrefix = false) :
    (ServeHTTP env s path).w.status = 302 ∧
      (ServeHTTP env s path).w.written = [302] ∧
      (ServeHTTP env s path).trace =
        [Event.redirect s.urlPrefix 302, Event.accessLog 302 none] ∧
      attempts (ServeHTTP env s path) = [] := by
  have hh : handle env s path (initState env) =
      Res.ok () (Redirect (initState env) s.urlPrefix 302) := by
    unfold handle
    rw [if_neg (fun h => h.elim h1 h2), if_pos (by simp [h3])]
  simp only [ServeHTTP, hh, deferred]
  simp [logger, Redirect, WriteHeader, State.emit, initState, attempts]

/-- C6 at a concrete request: the path `/other` with the prefix `/docs`. -/
theorem redirect_outside_urlPrefix_witness :
    HasPrefix "/other".toList (SetPrefix (New "dest".toList) "/docs".toList).urlPrefix = false ∧
      (ServeHTTP emptyEnv (SetPrefix (New "dest".toList) "/docs".toList)
        "/other".toList).trace =
        [Event.redirect "/docs".toList 302, Event.accessLog 302 none] :=
  ⟨by decide,
    (redirect_outside_urlPrefix emptyEnv (SetPrefix (New "dest".toList) "/docs".toList)
      "/other".toList (by decide) (by decide) (by decide)).2.2.1⟩

/-- C7: when the handling of a request panics with the value `v` in the
state `st`, `ServeHTTP` records `v` in the error field of the wrapper; it
sends a 503 (through `WriteHeader`, so that the captured status becomes 503)
exactly when the captured status is still 0, and otherwise leaves the status
and the underlying writer unchanged; then the request is logged. -/
theorem panic_recovery (env : Env) (s : Server) (path : GoString) (v : PanicValue)
    (st : State) (h : handle env s path (initState env) = Res.panicked v st) :
    (ServeHTTP env s path).w.error = some v ∧
      (ServeHTTP env s path).w.written =
        st.w.written ++ (if st.w.status = 0 then [503] else []) ∧
      (ServeHTTP env s path).w.status = (if st.w.status = 0 then 503 else st.w.status) ∧
      (ServeHTTP env s path).trace =
        st.trace ++ (if st.w.status = 0 then [Event.httpError 503] else []) ++
          [Event.accessLog (if st.w.status = 0 then 503 else st.w.status) (some v)] := by
  simp only [ServeHTTP, h, deferred]
  split <;> rename_i hs <;>
    simp [hs, logger, httpError, WriteHeader, State.emit]

/-- C7 at a concrete request: in `panicEnv` the request `/x` panics in
`GenNote` before any status is written, and the reply is 503. -/
theorem panic_recovery_witness :
    (ServeHTTP panicEnv (New "dest".toList) "/x".toList).w.error = some indexOutOfRange ∧
      (ServeHTTP panicEnv (New "dest".toList) "/x".toList).w.written = [503] ∧
      (ServeHTTP panicEnv (New "dest".toList) "/x".toList).w.status = 503 :=
  have h := panic_recovery panicEnv (New "dest".toList) "/x".toList indexOutOfRange
    (handle panicEnv (New "dest".toList) "/x".toList (initState panicEnv)).state
    (by decide)
  ⟨h.1, h.2.1.trans (by decide), h.2.2.1.trans (by decide)⟩

/-- The other branch of C7: in `panicEnv` the request `/x.css` panics inside
`http.ServeFile` after the status 200 was written; no 503 is sent. -/
theorem panic_after_status_example :
    (ServeHTTP panicEnv (New "dest".toList) "/x.css".toList).w.error =
        some "write: broken pipe".toList ∧
      (ServeHTTP panicEnv (New "dest".toList) "/x.css".toList).w.written = [200] ∧
      (ServeHTTP panicEnv (New "dest".toList) "/x.css".toList).w.status = 200 := by
  decide

/-- C8: `New` yields the prefix `"/"`, `SetPrefix("")` sets it to `"/"`,
`SetPrefix(p)` with `p` non-empty sets it to `p`, and after `New` and any
sequence of `SetPrefix` calls the prefix is non-empty. -/
theorem urlPrefix_never_empty (dstDir : GoString) (s : Server) (p : GoString)
    (ps : List GoString) :
    GetPrefix (New dstDir) = ['/'] ∧
      GetPrefix (SetPrefix s []) = ['/'] ∧
      GetPrefix (SetPrefix s p) = (if p = [] then ['/'] else p) ∧
      GetPrefix (ps.foldl SetPrefix (New dstDir)) ≠ [] := by
  refine ⟨rfl, rfl, rfl, ?_⟩
  exact foldl_SetPrefix_ne_nil ps (New dstDir) (by simp [New, SetPrefix])

/-- C9: a text that contains no match of the marker pattern (in particular a
text that does not contain the literal `style="color:darkgrey`) is returned
unchanged by the rewrite step of `readAndReplacedFile`, whatever the note. -/
theorem rewrite_unchanged_without_marker (expand : GoString → GoString → GoString)
    (note s : GoString) :
    (Contains s markerOpen = false → ¬ containsMatch marker s) ∧
      (¬ containsMatch marker s → rewrite expand note s = s) := by
  refine ⟨not_containsMatch_of_not_Contains s, ?_⟩
  intro h
  exact replaceAllLoop_none marker _ _ s (findMatch_none marker s h)

/-- C9 at a concrete text without the marker. -/
theorem rewrite_unchanged_without_marker_witness :
    Contains "<p>hello</p>".toList markerOpen = false ∧
      rewrite (fun template _ => template) "note".toList "<p>hello</p>".toList =
        "<p>hello</p>".toList :=
  ⟨by decide,
    (rewrite_unchanged_without_marker (fun template _ => template) "note".toList
      "<p>hello</p>".toList).2
      ((rewrite_unchanged_without_marker (fun template _ => template) "note".toList
        "<p>hello</p>".toList).1 (by decide))⟩

/-- C10: resolution is not confined to the base directory.  For the server
`New("dest")` and the request path `/../x.html`, in every environment, the
one candidate passed to `serveFile` is `x.html`, which does not have `dest` as
a prefix. -/
theorem candidate_escapes_dstDir (env : Env) :
    attempts (ServeHTTP env (New "dest".toList) "/../x.html".toList) = ["x.html".toList] ∧
      HasPrefix "x.html".toList (New "dest".toList).dstDir = false := by
  refine ⟨?_, by decide⟩
  have hh : handle env (New "dest".toList) "/../x.html".toList (initState env) =
      match serveFiles env (New "dest".toList) "../x.html".toList (initState env) with
      | Res.ok _ st => Res.ok () st
      | Res.panicked v st => Res.panicked v st := by
    have e1 : ¬ ("/../x.html".toList = "favicon.ico".toList ∨
        "/../x.html".toList = "robots.txt".toList) := by decide
    have e2 : HasPrefix "/../x.html".toList (New "dest".toList).urlPrefix = true := by decide
    have e3 : TrimPrefix "/../x.html".toList (New "dest".toList).urlPrefix =
        "../x.html".toList := by decide
    simp only [handle, e1, e2, e3, if_false, not_true_eq_false]
  have hs : attempts (serveFiles env (New "dest".toList) "../x.html".toList
      (initState env)).state = attempts (initState env) ++
        [Join [(New "dest".toList).dstDir, (New "dest".toList).urlPrefix,
          "../x.html".toList]] := by
    rw [serveFiles_ext_serveFile env (New "dest".toList) "../x.html".toList
      (initState env) (by decide) (by decide)]
    exact attempts_serveFile env _ _ _
  have hj : Join [(New "dest".toList).dstDir, (New "dest".toList).urlPrefix,
      "../x.html".toList] = "x.html".toList := by decide
  rw [hj] at hs
  rw [ServeHTTP, attempts_deferred, hh]
  cases hr : serveFiles env (New "dest".toList) "../x.html".toList (initState env) with
  | ok a st1 =>
    rw [hr] at hs
    simpa [Res.state, attempts, initState] using hs
  | panicked v st1 =>
    rw [hr] at hs
    simpa [Res.state, attempts, initState] using hs

end Pugo
